import Mathlib

/-!
Verification development for the firexkit repository.

The chain/returns core (Task Contract, Output Binder, Signature, InjectArgs,
Chain, Chain Verifier) is modelled from the specification, since the modules
firexkit/chain.py and firexkit/task.py are not present in the source tree;
the unit tests in test/chain_tests.py pin down the behaviour at the points
where the specification text is ambiguous.  The retry collaborators
(firexkit/broker.py and firexkit/inspect.py) are embedded directly from the
source files.
-/

namespace Firexkit

abbrev Name := String

/-- Modelled from the spec: a bound kwarg value is a tagged variant,
either a literal value or an indirect reference to an output name
(spec section 9: keep as an explicit tagged value rather than a string
prefix marker).  Literal payloads are modelled as strings. -/
inductive BoundValue where
  | literal (v : String)
  | ref (target : Name)
deriving DecidableEq, Repr

/-- Modelled from the spec: per-task metadata (required input names,
optional input names with default values, declared output names), plus the
task name used by error messages and labels.  Missing source:
firexkit/task.py. -/
structure TaskContract where
  name : Name
  required_inputs : List Name
  optional_inputs : List (Name × String)
  declared_outputs : List Name
deriving DecidableEq, Repr

/-- Modelled from the spec: a bound invocation of one task, the task
contract plus keyword bindings.  Missing source: firexkit/chain.py. -/
structure Signature where
  task_contract : TaskContract
  bound_kwargs : List (Name × BoundValue)
deriving DecidableEq, Repr

/-- Modelled from the spec: an Injected Seed, a pseudo-task-invocation
supplying literal starting values with no requirements of its own.
Missing source: firexkit/chain.py (class InjectArgs). -/
structure InjectArgs where
  seed_kwargs : List (Name × String)
deriving DecidableEq, Repr

/-- A step of a flattened chain: a Signature or an Injected Seed. -/
inductive Step where
  | sig (s : Signature)
  | seed (i : InjectArgs)
deriving DecidableEq, Repr

/-- Modelled from the spec: a Chain is an ordered, flattened sequence of
steps with an optional explicit label. -/
structure Chain where
  steps : List Step
  label : Option String
deriving DecidableEq, Repr

/-- The chain-argument error raised by the verifier: it names the offending
task and the unsatisfied input.  Missing source: firexkit/chain.py
(class InvalidChainArgsException). -/
structure InvalidChainArgsException where
  task : Name
  input : Name
deriving DecidableEq, Repr

/-- First binding for a key in a kwargs mapping (Python dict lookup;
dict keys are unique, duplicates can only arise in the raw list model). -/
def lookupKw : List (Name × BoundValue) → Name → Option BoundValue
  | [], _ => none
  | p :: rest, k => if p.1 = k then some p.2 else lookupKw rest k

/-- Modelled from the spec (section 4.2, step 3b): a required input is
satisfied if it is bound to a literal, or bound to an indirect reference
whose target is in the available pool, or is itself in the available pool. -/
def requiredSatisfied (avail : List Name) (kwargs : List (Name × BoundValue)) (r : Name) : Bool :=
  (match lookupKw kwargs r with
   | some (.literal _) => true
   | some (.ref n) => avail.contains n
   | none => false) || avail.contains r

/-- First required input (in declared order) that is not satisfied. -/
def checkRequired (avail : List Name) (kwargs : List (Name × BoundValue)) :
    List Name → Option Name
  | [] => none
  | r :: rest =>
    if requiredSatisfied avail kwargs r then checkRequired avail kwargs rest else some r

/-- Modelled from the spec (section 4.2, step 3b): a bound value that is an
indirect reference to a name not yet in the available pool counts as
unsatisfied for that input.  The tests (chain_tests.py, test_indirect) show
this check applies to every bound kwarg, not only to required inputs. -/
def refUnresolved (avail : List Name) : Name × BoundValue → Bool
  | (_, .literal _) => false
  | (_, .ref n) => ! avail.contains n

/-- Key of the first bound kwarg whose value is an unresolved reference. -/
def checkRefs (avail : List Name) : List (Name × BoundValue) → Option Name
  | [] => none
  | p :: rest => if refUnresolved avail p then some p.1 else checkRefs avail rest

/-- Keys of the bound kwargs that carry literal (non-reference) values. -/
def sigLiteralKeys : List (Name × BoundValue) → List Name
  | [] => []
  | (k, .literal _) :: rest => k :: sigLiteralKeys rest
  | (_, .ref _) :: rest => sigLiteralKeys rest

/-- Modelled from the spec (section 4.2): the check performed on one step of
the walk.  Seeds have no requirements; a signature first checks its
required inputs, then its bound indirect references. -/
def stepCheck (avail : List Name) : Step → Option InvalidChainArgsException
  | .seed _ => none
  | .sig s =>
    match checkRequired avail s.bound_kwargs s.task_contract.required_inputs with
    | some r => some ⟨s.task_contract.name, r⟩
    | none =>
      match checkRefs avail s.bound_kwargs with
      | some k => some ⟨s.task_contract.name, k⟩
      | none => none

/-- Modelled from the spec (section 4.2): the contribution of a step to the
available-outputs pool: a seed contributes its keys, a signature its
literally-bound keys plus the contract's declared outputs. -/
def stepContrib (avail : List Name) : Step → List Name
  | .seed i => avail ++ i.seed_kwargs.map Prod.fst
  | .sig s => avail ++ sigLiteralKeys s.bound_kwargs ++ s.task_contract.declared_outputs

/-- Modelled from the spec (section 4.2): the verifier walk over the
flattened steps, accumulating the available pool, failing on the first
offending step.  On success it returns the final pool. -/
def verifySteps : List Step → List Name → Except InvalidChainArgsException (List Name)
  | [], avail => .ok avail
  | st :: rest, avail =>
    match stepCheck avail st with
    | some e => .error e
    | none => verifySteps rest (stepContrib avail st)

/-- Modelled from the spec: verify(chain) walks the flattened steps starting
from the empty pool; it returns without effect on success.  Missing source:
firexkit/chain.py (verify_chain_arguments). -/
def verify_chain_arguments (c : Chain) : Except InvalidChainArgsException Unit :=
  match verifySteps c.steps [] with
  | .ok _ => .ok ()
  | .error e => .error e

/-- An invocation of the verifier seen as a state transformer on the chain:
it produces its outcome and the (unmodified) chain. -/
def verifyRun (c : Chain) : Except InvalidChainArgsException Unit × Chain :=
  (verify_chain_arguments c, c)

/-- A chain-like operand of the append (pipe) operation. -/
inductive Chainable where
  | sig (s : Signature)
  | seed (i : InjectArgs)
  | chain (c : Chain)
deriving DecidableEq, Repr

/-- The flattened step sequence of a chain-like operand. -/
def Chainable.toSteps : Chainable → List Step
  | .sig s => [.sig s]
  | .seed i => [.seed i]
  | .chain c => c.steps

/-- Modelled from the spec (section 4.3): the append operation combines two
chain-like operands into a single flattened Chain preserving left-to-right
order; the produced chain has no explicit label. -/
def pipe (a b : Chainable) : Chainable :=
  .chain ⟨a.toSteps ++ b.toSteps, none⟩

/-- Verification outcome of a chain-like operand. -/
def verifyChainable (a : Chainable) : Except InvalidChainArgsException (List Name) :=
  verifySteps a.toSteps []

/-- Modelled from the spec: the claim-side satisfaction predicate for a
required input, written from the words of the specification: bound as a
literal, or bound as an indirect reference to a name in the pool, or itself
present in the pool. -/
def RequiredSatisfiedSpec (avail : List Name) (kwargs : List (Name × BoundValue)) (r : Name) : Prop :=
  (∃ v, (r, BoundValue.literal v) ∈ kwargs) ∨
  (∃ n, (r, BoundValue.ref n) ∈ kwargs ∧ n ∈ avail) ∨
  r ∈ avail

/-- A specific input of a signature is unsatisfiable at a given pool: either
an unsatisfied required input, or a bound kwarg carrying an indirect
reference to a name outside the pool. -/
def OffendingInput (avail : List Name) (s : Signature) (inp : Name) : Prop :=
  (inp ∈ s.task_contract.required_inputs ∧ ¬ RequiredSatisfiedSpec avail s.bound_kwargs inp) ∨
  (∃ n, (inp, BoundValue.ref n) ∈ s.bound_kwargs ∧ n ∉ avail)

/-- A step offends at a given pool when it is a signature with some
unsatisfiable input; seeds never offend. -/
def StepOffends (avail : List Name) : Step → Prop
  | .seed _ => False
  | .sig s => ∃ inp, OffendingInput avail s inp

/-- Well-formedness of a step: the kwargs keys of a signature are distinct
(Python dict keys are unique). -/
def StepWF : Step → Prop
  | .seed _ => True
  | .sig s => (s.bound_kwargs.map Prod.fst).Nodup

instance (st : Step) : Decidable (StepWF st) :=
  match st with
  | .seed _ => .isTrue trivial
  | .sig s => inferInstanceAs (Decidable ((s.bound_kwargs.map Prod.fst).Nodup))

/-- Well-formedness of a chain: every signature has distinct kwargs keys. -/
def ChainWF (c : Chain) : Prop := ∀ st ∈ c.steps, StepWF st

instance (c : Chain) : Decidable (ChainWF c) :=
  inferInstanceAs (Decidable (∀ st ∈ c.steps, StepWF st))

/-- Claim-side boolean walk that checks only the required inputs of every
step (ignoring the verifier's indirect-reference check on bound kwargs),
accumulating the pool exactly as the verifier does. -/
def allRequiredOk : List Step → List Name → Bool
  | [], _ => true
  | st :: rest, avail =>
    (match st with
     | .seed _ => true
     | .sig s => (checkRequired avail s.bound_kwargs s.task_contract.required_inputs).isNone)
    && allRequiredOk rest (stepContrib avail st)

/-- A Python value, as far as the output-binder needs to distinguish them:
None, a non-sequence scalar (number or string), or a tuple. -/
inductive PyVal where
  | pnone
  | pnat (n : Nat)
  | pstr (s : String)
  | ptuple (vs : List PyVal)
deriving Repr

/-- The exception class raised by the output binder (source symbol
ReturnsCodingException in firexkit/chain.py, not present in the tree). -/
inductive ReturnsCodingException where
  | mk
deriving DecidableEq, Repr

/-- What the returns decoration was applied to: the raw implementation
(below the task registration) or an already-registered task (the decoration
was applied outside/above the task-registration decoration). -/
inductive DecTarget where
  | rawImpl
  | registeredTask
deriving DecidableEq, Repr

/-- Modelled from the spec (section 4.1): declare_outputs fails with a
coding error at decoration time if the name list is empty, contains
duplicates, or the decoration is applied above the task registration;
otherwise it attaches the declared output names.  Missing source:
firexkit/chain.py (returns decorator). -/
def returnsDecorate (names : List Name) (target : DecTarget) :
    Except ReturnsCodingException (List Name) :=
  if target = .registeredTask then .error .mk
  else if names.isEmpty then .error .mk
  else if names.dedup.length = names.length then .ok names
  else .error .mk

/-- Modelled from the spec (section 4.1): the call-time behaviour of the
output binder.  With one declared name the whole result is bound to it
as-is; with several, the result must be a sequence of exactly that many
elements, which are zipped with the declared names in order; the caller's
original keyword arguments are merged into the produced mapping.  Missing
source: firexkit/chain.py (returns decorator). -/
def returnsCall (names : List Name) (kwargs : List (Name × PyVal)) (result : PyVal) :
    Except ReturnsCodingException (List (Name × PyVal)) :=
  match names with
  | [nm] => .ok ((nm, result) :: kwargs)
  | _ =>
    match result with
    | .ptuple vs =>
      if vs.length = names.length then .ok (names.zip vs ++ kwargs)
      else .error .mk
    | _ => .error .mk

/-- Outcome of one invocation of the callable wrapped by
handle_broker_timeout: a returned value or a raised exception, identified
by its type name (firexkit/broker.py compares type names). -/
inductive CallResult where
  | ok (v : PyVal)
  | exn (en : String)
deriving Repr

/-- Observable outcome of handle_broker_timeout: the callable's return
value passed through, or an exception propagated to the caller. -/
inductive BrokerOutcome where
  | ret (v : PyVal)
  | raised (en : String)
deriving Repr

/-- The retry loop of handle_broker_timeout (firexkit/broker.py, lines
9 to 41), embedded with an explicit clock and fuel.  The i-th call of the
callable has outcome attempts i; the clock advances by retry_delay per
retry (modelling time.sleep), and the current time is compared against the
deadline exactly where the source does.  The give-up branch re-raises the
caught TimeoutError; the instrumentation events cannot change the outcome
(the source returns or re-raises from a finally block) and are omitted.
Fuel exhaustion (result none) means the loop is still running. -/
def handleBrokerRun (attempts : Nat → CallResult) (timeoutTime : Option Nat) (delay : Nat) :
    Nat → Nat → Nat → Option BrokerOutcome
  | 0, _, _ => none
  | fuel + 1, now, i =>
    match attempts i with
    | .ok v => some (.ret v)
    | .exn en =>
      if en ≠ "TimeoutError" then some (.raised en)
      else
        match timeoutTime with
        | none => handleBrokerRun attempts none delay fuel (now + delay) (i + 1)
        | some tt =>
          if now < tt then handleBrokerRun attempts (some tt) delay fuel (now + delay) (i + 1)
          else some (.raised "TimeoutError")

/-- handle_broker_timeout (firexkit/broker.py, line 6): the deadline is
start time plus timeout when the timeout argument is truthy, and absent
otherwise (the Python default is None; 0 models both None and 0, which are
falsy).  Time is measured in ticks of the retry delay granularity. -/
def handle_broker_timeout (attempts : Nat → CallResult) (timeout : Nat) (retry_delay : Nat)
    (fuel t0 : Nat) : Option BrokerOutcome :=
  handleBrokerRun attempts (if timeout = 0 then none else some (t0 + timeout)) retry_delay fuel t0 0

/-- The broker retry wrapper terminates on a given configuration when some
finite fuel suffices for it to produce an outcome. -/
def BrokerTerminates (attempts : Nat → CallResult) (timeout : Nat) (retry_delay : Nat) : Prop :=
  ∃ fuel t0, (handle_broker_timeout attempts timeout retry_delay fuel t0).isSome = true

/-- Outcome of one _inspect() call inside inspect_with_retry: a returned
value (possibly None) or a raised exception. -/
inductive InspectResult where
  | ok (v : PyVal)
  | exn (en : String)
deriving Repr

/-- Observable outcome of inspect_with_retry. -/
inductive InspectOutcome where
  | ret (v : PyVal)
  | raised (en : String)
deriving Repr

/-- The final unguarded _inspect() call (firexkit/inspect.py, line 33):
its exceptions propagate and its value, even None, is returned. -/
def finalInspect : InspectResult → InspectOutcome
  | .ok v => .ret v
  | .exn en => .raised en

/-- The polling loop of inspect_with_retry (firexkit/inspect.py, lines
20 to 33): while the clock is before the deadline, call _inspect; a None
result with retry_if_None_returned set, or any exception, sleeps one tick
and retries; any other result is returned.  When the deadline passes, one
final unguarded call is made.  One tick models the fixed 0.1 second sleep;
the timeout is measured in the same ticks. -/
def inspectLoop (attempts : Nat → InspectResult) (retryIfNone : Bool) (tt : Nat)
    (now i : Nat) : InspectOutcome :=
  if _h : now < tt then
    match attempts i with
    | .ok .pnone =>
      if retryIfNone then inspectLoop attempts retryIfNone tt (now + 1) (i + 1)
      else .ret .pnone
    | .ok v => .ret v
    | .exn _ => inspectLoop attempts retryIfNone tt (now + 1) (i + 1)
  else finalInspect (attempts i)
termination_by tt - now
decreasing_by all_goals omega

/-- inspect_with_retry (firexkit/inspect.py, line 12): with a truthy
timeout the polling loop runs from the start time; with a falsy timeout a
single unguarded call is made. -/
def inspect_with_retry (attempts : Nat → InspectResult) (inspect_retry_timeout : Nat)
    (retryIfNone : Bool) (t0 : Nat) : InspectOutcome :=
  if inspect_retry_timeout = 0 then finalInspect (attempts 0)
  else inspectLoop attempts retryIfNone (t0 + inspect_retry_timeout) t0 0

/-! Helper lemmas about the lookup and the per-step checks. -/

theorem lookupKw_eq_none_iff (kwargs : List (Name × BoundValue)) (k : Name) :
    lookupKw kwargs k = none ↔ ∀ v, (k, v) ∉ kwargs := by
  induction kwargs with
  | nil => simp [lookupKw]
  | cons p rest ih =>
    by_cases h : p.1 = k
    · simp only [lookupKw, if_pos h]
      constructor
      · intro hc; cases hc
      · intro hall
        exact absurd (List.mem_cons_self _ _) (by
          have := hall p.2
          rw [show (k, p.2) = p from by rw [← h]] at this
          exact this)
    · simp only [lookupKw, if_neg h, ih]
      constructor
      · intro hall v hv
        rcases List.mem_cons.mp hv with heq | hmem
        · exact h (congrArg Prod.fst heq.symm)
        · exact hall v hmem
      · intro hall v hv
        exact hall v (List.mem_cons_of_mem _ hv)

theorem lookupKw_eq_some_mem {kwargs : List (Name × BoundValue)} {k : Name} {v : BoundValue}
    (h : lookupKw kwargs k = some v) : (k, v) ∈ kwargs := by
  induction kwargs with
  | nil => cases h
  | cons p rest ih =>
    by_cases hk : p.1 = k
    · simp only [lookupKw, if_pos hk] at h
      cases h
      exact List.mem_cons.mpr (Or.inl (by rw [← hk]))
    · simp only [lookupKw, if_neg hk] at h
      exact List.mem_cons_of_mem _ (ih h)

theorem lookupKw_of_mem_nodup {kwargs : List (Name × BoundValue)}
    (hnd : (kwargs.map Prod.fst).Nodup) {k : Name} {v : BoundValue}
    (hm : (k, v) ∈ kwargs) : lookupKw kwargs k = some v := by
  induction kwargs with
  | nil => cases hm
  | cons p rest ih =>
    rw [List.map_cons, List.nodup_cons] at hnd
    rcases List.mem_cons.mp hm with heq | hmem
    · rw [← heq]
      simp [lookupKw]
    · have hk : p.1 ≠ k := by
        intro hk
        exact hnd.1 (hk ▸ List.mem_map_of_mem Prod.fst hmem)
      simp only [lookupKw, if_neg hk]
      exact ih hnd.2 hmem

theorem contains_iff_mem (l : List Name) (a : Name) : l.contains a = true ↔ a ∈ l := by
  simp

theorem requiredSatisfied_iff_spec {kwargs : List (Name × BoundValue)}
    (hnd : (kwargs.map Prod.fst).Nodup) (avail : List Name) (r : Name) :
    requiredSatisfied avail kwargs r = true ↔ RequiredSatisfiedSpec avail kwargs r := by
  unfold requiredSatisfied RequiredSatisfiedSpec
  cases hl : lookupKw kwargs r with
  | none =>
    have hnone := (lookupKw_eq_none_iff kwargs r).mp hl
    simp only [Bool.false_or, contains_iff_mem]
    constructor
    · intro h; exact Or.inr (Or.inr h)
    · rintro (⟨v, hv⟩ | ⟨n, hn, _⟩ | h)
      · exact absurd hv (hnone _)
      · exact absurd hn (hnone _)
      · exact h
  | some bv =>
    cases bv with
    | literal v =>
      simp only [Bool.true_or, true_iff]
      exact Or.inl ⟨v, lookupKw_eq_some_mem hl⟩
    | ref n =>
      simp only [Bool.or_eq_true, contains_iff_mem]
      constructor
      · rintro (h | h)
        · exact Or.inr (Or.inl ⟨n, lookupKw_eq_some_mem hl, h⟩)
        · exact Or.inr (Or.inr h)
      · rintro (⟨v, hv⟩ | ⟨m, hm, hmem⟩ | h)
        · rw [lookupKw_of_mem_nodup hnd hv] at hl; cases hl
        · rw [lookupKw_of_mem_nodup hnd hm] at hl
          cases hl
          exact Or.inl hmem
        · exact Or.inr h

theorem checkRequired_eq_none_iff (avail : List Name) (kwargs : List (Name × BoundValue))
    (req : List Name) :
    checkRequired avail kwargs req = none ↔
      ∀ r ∈ req, requiredSatisfied avail kwargs r = true := by
  induction req with
  | nil => simp [checkRequired]
  | cons r rest ih =>
    by_cases h : requiredSatisfied avail kwargs r = true
    · simp [checkRequired, h, ih]
    · simp [checkRequired, h]

theorem checkRequired_eq_some {avail : List Name} {kwargs : List (Name × BoundValue)}
    {req : List Name} {r : Name} (h : checkRequired avail kwargs req = some r) :
    r ∈ req ∧ requiredSatisfied avail kwargs r = false := by
  induction req with
  | nil => cases h
  | cons x rest ih =>
    by_cases hx : requiredSatisfied avail kwargs x = true
    · rw [checkRequired, if_pos hx] at h
      rcases ih h with ⟨hm, hs⟩
      exact ⟨List.mem_cons_of_mem _ hm, hs⟩
    · rw [checkRequired, if_neg hx] at h
      cases h
      exact ⟨List.mem_cons_self _ _, Bool.eq_false_iff.mpr hx⟩

theorem checkRefs_eq_none_iff (avail : List Name) (kwargs : List (Name × BoundValue)) :
    checkRefs avail kwargs = none ↔ ∀ p ∈ kwargs, refUnresolved avail p = false := by
  induction kwargs with
  | nil => simp [checkRefs]
  | cons p rest ih =>
    by_cases h : refUnresolved avail p = true
    · simp [checkRefs, h]
    · have h0 : refUnresolved avail p = false := Bool.eq_false_iff.mpr h
      simp [checkRefs, h0, ih]

theorem checkRefs_eq_some {avail : List Name} {kwargs : List (Name × BoundValue)}
    {k : Name} (h : checkRefs avail kwargs = some k) :
    ∃ n, (k, BoundValue.ref n) ∈ kwargs ∧ n ∉ avail := by
  induction kwargs with
  | nil => cases h
  | cons p rest ih =>
    by_cases hp : refUnresolved avail p = true
    · rw [checkRefs, if_pos hp] at h
      cases h
      rcases p with ⟨a, bv⟩
      cases bv with
      | literal v => simp [refUnresolved] at hp
      | ref n =>
        refine ⟨n, List.mem_cons_self _ _, ?_⟩
        simp only [refUnresolved, Bool.not_eq_eq_eq_not, Bool.not_true] at hp
        intro hmem
        rw [(contains_iff_mem avail n).mpr hmem] at hp
        cases hp
    · rw [checkRefs, if_neg hp] at h
      rcases ih h with ⟨n, hmem, hn⟩
      exact ⟨n, List.mem_cons_of_mem _ hmem, hn⟩

theorem checkRefs_isSome_of_mem {avail : List Name} {kwargs : List (Name × BoundValue)}
    {k n : Name} (hmem : (k, BoundValue.ref n) ∈ kwargs) (hn : n ∉ avail) :
    ∃ k2, checkRefs avail kwargs = some k2 := by
  cases h : checkRefs avail kwargs with
  | some k2 => exact ⟨k2, rfl⟩
  | none =>
    have := (checkRefs_eq_none_iff avail kwargs).mp h _ hmem
    simp only [refUnresolved, Bool.not_eq_eq_eq_not, Bool.not_false] at this
    exact absurd ((contains_iff_mem avail n).mp this) hn

/-! Characterization of the per-step check in terms of the claim-side
offence predicates, for well-formed steps. -/

theorem stepCheck_eq_none_iff {st : Step} (hwf : StepWF st) (avail : List Name) :
    stepCheck avail st = none ↔ ¬ StepOffends avail st := by
  cases st with
  | seed i => simp [stepCheck, StepOffends]
  | sig s =>
    have hnd : (s.bound_kwargs.map Prod.fst).Nodup := hwf
    constructor
    · intro h hoff
      rcases hoff with ⟨inp, hinp⟩
      rw [stepCheck] at h
      cases hreq : checkRequired avail s.bound_kwargs s.task_contract.required_inputs with
      | some r => rw [hreq] at h; cases h
      | none =>
        rw [hreq] at h
        cases hrefs : checkRefs avail s.bound_kwargs with
        | some k => rw [hrefs] at h; cases h
        | none =>
          rcases hinp with ⟨hmem, hnsat⟩ | ⟨n, hmem, hn⟩
          · have hsat := (checkRequired_eq_none_iff avail s.bound_kwargs _).mp hreq inp hmem
            exact hnsat ((requiredSatisfied_iff_spec hnd avail inp).mp hsat)
          · rcases checkRefs_isSome_of_mem hmem hn with ⟨k2, hk2⟩
            rw [hk2] at hrefs; cases hrefs
    · intro hnoff
      rw [stepCheck]
      cases hreq : checkRequired avail s.bound_kwargs s.task_contract.required_inputs with
      | some r =>
        rcases checkRequired_eq_some hreq with ⟨hmem, hsat⟩
        exact absurd ⟨r, Or.inl ⟨hmem, fun hspec => by
          rw [(requiredSatisfied_iff_spec hnd avail r).mpr hspec] at hsat; cases hsat⟩⟩ hnoff
      | none =>
        cases hrefs : checkRefs avail s.bound_kwargs with
        | some k =>
          rcases checkRefs_eq_some hrefs with ⟨n, hmem, hn⟩
          exact absurd ⟨k, Or.inr ⟨n, hmem, hn⟩⟩ hnoff
        | none => rfl

theorem stepCheck_eq_some_offends {st : Step} (hwf : StepWF st) {avail : List Name}
    {e : InvalidChainArgsException} (h : stepCheck avail st = some e) :
    ∃ s, st = Step.sig s ∧ e.task = s.task_contract.name ∧
      OffendingInput avail s e.input := by
  cases st with
  | seed i => rw [stepCheck] at h; cases h
  | sig s =>
    have hnd : (s.bound_kwargs.map Prod.fst).Nodup := hwf
    refine ⟨s, rfl, ?_⟩
    rw [stepCheck] at h
    cases hreq : checkRequired avail s.bound_kwargs s.task_contract.required_inputs with
    | some r =>
      rw [hreq] at h
      cases h
      rcases checkRequired_eq_some hreq with ⟨hmem, hsat⟩
      exact ⟨rfl, Or.inl ⟨hmem, fun hspec => by
        rw [(requiredSatisfied_iff_spec hnd avail r).mpr hspec] at hsat; cases hsat⟩⟩
    | none =>
      rw [hreq] at h
      cases hrefs : checkRefs avail s.bound_kwargs with
      | some k =>
        rw [hrefs] at h
        cases h
        rcases checkRefs_eq_some hrefs with ⟨n, hmem, hn⟩
        exact ⟨rfl, Or.inr ⟨n, hmem, hn⟩⟩
      | none => rw [hrefs] at h; cases h

/-! Decomposition lemmas for the verifier walk. -/

theorem verifySteps_append_ok {xs : List Step} {avail a : List Name}
    (h : verifySteps xs avail = .ok a) (ys : List Step) :
    verifySteps (xs ++ ys) avail = verifySteps ys a := by
  induction xs generalizing avail with
  | nil =>
    rw [verifySteps] at h
    cases h
    rfl
  | cons st rest ih =>
    rw [verifySteps] at h
    rw [List.cons_append, verifySteps]
    cases hc : stepCheck avail st with
    | some e => rw [hc] at h; cases h
    | none =>
      rw [hc] at h
      exact ih h

theorem verifySteps_append_error {xs : List Step} {avail : List Name}
    {e : InvalidChainArgsException} (h : verifySteps xs avail = .error e) (ys : List Step) :
    verifySteps (xs ++ ys) avail = .error e := by
  induction xs generalizing avail with
  | nil => cases h
  | cons st rest ih =>
    rw [verifySteps] at h
    rw [List.cons_append, verifySteps]
    cases hc : stepCheck avail st with
    | some e2 => rw [hc] at h; cases h; rfl
    | none =>
      rw [hc] at h
      exact ih h

theorem verifySteps_ok_decomp {xs ys : List Step} {avail b : List Name}
    (h : verifySteps (xs ++ ys) avail = .ok b) :
    ∃ a, verifySteps xs avail = .ok a ∧ verifySteps ys a = .ok b := by
  induction xs generalizing avail with
  | nil => exact ⟨avail, rfl, h⟩
  | cons st rest ih =>
    rw [List.cons_append, verifySteps] at h
    cases hc : stepCheck avail st with
    | some e => rw [hc] at h; cases h
    | none =>
      rw [hc] at h
      rcases ih h with ⟨a, h1, h2⟩
      refine ⟨a, ?_, h2⟩
      rw [verifySteps, hc]
      exact h1

theorem verifySteps_error_decomp {xs : List Step} {avail : List Name}
    {e : InvalidChainArgsException} (h : verifySteps xs avail = .error e) :
    ∃ pre st post a, xs = pre ++ st :: post ∧ verifySteps pre avail = .ok a ∧
      stepCheck a st = some e := by
  induction xs generalizing avail with
  | nil => cases h
  | cons st rest ih =>
    rw [verifySteps] at h
    cases hc : stepCheck avail st with
    | some e2 =>
      rw [hc] at h
      cases h
      exact ⟨[], st, rest, avail, rfl, rfl, hc⟩
    | none =>
      rw [hc] at h
      rcases ih h with ⟨pre, st2, post, a, heq, hpre, hstep⟩
      refine ⟨st :: pre, st2, post, a, by rw [heq]; rfl, ?_, hstep⟩
      rw [verifySteps, hc]
      exact hpre

theorem verifySteps_ok_steps {xs : List Step} {avail b : List Name}
    (h : verifySteps xs avail = .ok b) :
    ∀ pre st post a, xs = pre ++ st :: post → verifySteps pre avail = .ok a →
      stepCheck a st = none := by
  intro pre st post a heq hpre
  rw [heq] at h
  rw [verifySteps_append_ok hpre (st :: post)] at h
  rw [verifySteps] at h
  cases hc : stepCheck a st with
  | some e => rw [hc] at h; cases h
  | none => rfl

/-! Monotonicity of the verifier in the available pool, and the effect of
appending one literal binding to a signature. -/

theorem contains_mono {avail avail2 : List Name} (hsub : avail ⊆ avail2) {n : Name}
    (h : avail.contains n = true) : avail2.contains n = true :=
  (contains_iff_mem avail2 n).mpr (hsub ((contains_iff_mem avail n).mp h))

theorem requiredSatisfied_mono {avail avail2 : List Name} (hsub : avail ⊆ avail2)
    (kwargs : List (Name × BoundValue)) (r : Name)
    (h : requiredSatisfied avail kwargs r = true) :
    requiredSatisfied avail2 kwargs r = true := by
  unfold requiredSatisfied at h ⊢
  cases hl : lookupKw kwargs r with
  | none =>
    rw [hl] at h
    simp only [Bool.false_or] at h ⊢
    exact contains_mono hsub h
  | some bv =>
    rw [hl] at h
    cases bv with
    | literal v => simp
    | ref n =>
      simp only [Bool.or_eq_true] at h ⊢
      rcases h with h | h
      · exact Or.inl (contains_mono hsub h)
      · exact Or.inr (contains_mono hsub h)

theorem refUnresolved_mono {avail avail2 : List Name} (hsub : avail ⊆ avail2)
    (p : Name × BoundValue) (h : refUnresolved avail p = false) :
    refUnresolved avail2 p = false := by
  rcases p with ⟨k, bv⟩
  cases bv with
  | literal v => rfl
  | ref n =>
    simp only [refUnresolved, Bool.not_eq_eq_eq_not, Bool.not_false] at h ⊢
    exact contains_mono hsub h

theorem stepCheck_mono {avail avail2 : List Name} (hsub : avail ⊆ avail2) (st : Step)
    (h : stepCheck avail st = none) : stepCheck avail2 st = none := by
  cases st with
  | seed i => rfl
  | sig s =>
    rw [stepCheck] at h
    cases hreq : checkRequired avail s.bound_kwargs s.task_contract.required_inputs with
    | some r => rw [hreq] at h; cases h
    | none =>
      rw [hreq] at h
      cases hrefs : checkRefs avail s.bound_kwargs with
      | some k => rw [hrefs] at h; cases h
      | none =>
        rw [stepCheck]
        have hreq2 : checkRequired avail2 s.bound_kwargs s.task_contract.required_inputs = none := by
          rw [checkRequired_eq_none_iff]
          intro r hr
          exact requiredSatisfied_mono hsub _ r
            ((checkRequired_eq_none_iff avail _ _).mp hreq r hr)
        have hrefs2 : checkRefs avail2 s.bound_kwargs = none := by
          rw [checkRefs_eq_none_iff]
          intro p hp
          exact refUnresolved_mono hsub p ((checkRefs_eq_none_iff avail _).mp hrefs p hp)
        rw [hreq2, hrefs2]

theorem stepContrib_mono {avail avail2 : List Name} (hsub : avail ⊆ avail2) (st : Step) :
    stepContrib avail st ⊆ stepContrib avail2 st := by
  cases st with
  | seed i =>
    intro x hx
    rw [stepContrib] at hx ⊢
    rcases List.mem_append.mp hx with h | h
    · exact List.mem_append.mpr (Or.inl (hsub h))
    · exact List.mem_append.mpr (Or.inr h)
  | sig s =>
    intro x hx
    rw [stepContrib] at hx ⊢
    rcases List.mem_append.mp hx with h | h
    · rcases List.mem_append.mp h with h2 | h2
      · exact List.mem_append.mpr (Or.inl (List.mem_append.mpr (Or.inl (hsub h2))))
      · exact List.mem_append.mpr (Or.inl (List.mem_append.mpr (Or.inr h2)))
    · exact List.mem_append.mpr (Or.inr h)

theorem verifySteps_ok_mono {xs : List Step} {avail avail2 b : List Name}
    (h : verifySteps xs avail = .ok b) (hsub : avail ⊆ avail2) :
    ∃ b2, verifySteps xs avail2 = .ok b2 ∧ b ⊆ b2 := by
  induction xs generalizing avail avail2 with
  | nil =>
    rw [verifySteps] at h
    cases h
    exact ⟨avail2, rfl, hsub⟩
  | cons st rest ih =>
    rw [verifySteps] at h
    cases hc : stepCheck avail st with
    | some e => rw [hc] at h; cases h
    | none =>
      rw [hc] at h
      rcases ih h (stepContrib_mono hsub st) with ⟨b2, hok, hb⟩
      refine ⟨b2, ?_, hb⟩
      rw [verifySteps, stepCheck_mono hsub st hc]
      exact hok

theorem lookupKw_append_left {l1 : List (Name × BoundValue)} {k : Name} {v : BoundValue}
    (h : lookupKw l1 k = some v) (l2 : List (Name × BoundValue)) :
    lookupKw (l1 ++ l2) k = some v := by
  induction l1 with
  | nil => cases h
  | cons p rest ih =>
    by_cases hk : p.1 = k
    · rw [lookupKw, if_pos hk] at h
      rw [List.cons_append, lookupKw, if_pos hk]
      exact h
    · rw [lookupKw, if_neg hk] at h
      rw [List.cons_append, lookupKw, if_neg hk]
      exact ih h

theorem lookupKw_append_right {l1 : List (Name × BoundValue)} {k : Name}
    (h : lookupKw l1 k = none) (l2 : List (Name × BoundValue)) :
    lookupKw (l1 ++ l2) k = lookupKw l2 k := by
  induction l1 with
  | nil => rfl
  | cons p rest ih =>
    by_cases hk : p.1 = k
    · rw [lookupKw, if_pos hk] at h; cases h
    · rw [lookupKw, if_neg hk] at h
      rw [List.cons_append, lookupKw, if_neg hk]
      exact ih h

theorem sigLiteralKeys_append (l1 l2 : List (Name × BoundValue)) :
    sigLiteralKeys (l1 ++ l2) = sigLiteralKeys l1 ++ sigLiteralKeys l2 := by
  induction l1 with
  | nil => rfl
  | cons p rest ih =>
    rcases p with ⟨k, bv⟩
    cases bv with
    | literal v => rw [List.cons_append, sigLiteralKeys, sigLiteralKeys, ih]; rfl
    | ref n => rw [List.cons_append, sigLiteralKeys, sigLiteralKeys, ih]

theorem requiredSatisfied_extend_literal {avail : List Name}
    {kw : List (Name × BoundValue)} {r : Name} (k : Name) (v : String)
    (h : requiredSatisfied avail kw r = true) :
    requiredSatisfied avail (kw ++ [(k, BoundValue.literal v)]) r = true := by
  unfold requiredSatisfied at h ⊢
  cases hl : lookupKw kw r with
  | some bv =>
    rw [lookupKw_append_left hl]
    rw [hl] at h
    exact h
  | none =>
    rw [hl] at h
    rw [lookupKw_append_right hl]
    by_cases hk : k = r
    · rw [lookupKw, if_pos hk]
      simp
    · rw [lookupKw, if_neg hk]
      exact h

theorem stepCheck_extend_literal {avail : List Name} {tc : TaskContract}
    {kw : List (Name × BoundValue)} (k : Name) (v : String)
    (h : stepCheck avail (Step.sig ⟨tc, kw⟩) = none) :
    stepCheck avail (Step.sig ⟨tc, kw ++ [(k, BoundValue.literal v)]⟩) = none := by
  rw [stepCheck] at h
  cases hreq : checkRequired avail kw tc.required_inputs with
  | some r => rw [hreq] at h; cases h
  | none =>
    rw [hreq] at h
    cases hrefs : checkRefs avail kw with
    | some k2 => rw [hrefs] at h; cases h
    | none =>
      rw [stepCheck]
      have hreq2 : checkRequired avail (kw ++ [(k, BoundValue.literal v)]) tc.required_inputs = none := by
        rw [checkRequired_eq_none_iff]
        intro r hr
        exact requiredSatisfied_extend_literal k v
          ((checkRequired_eq_none_iff avail kw _).mp hreq r hr)
      have hrefs2 : checkRefs avail (kw ++ [(k, BoundValue.literal v)]) = none := by
        rw [checkRefs_eq_none_iff]
        intro p hp
        rcases List.mem_append.mp hp with hp1 | hp1
        · exact (checkRefs_eq_none_iff avail kw).mp hrefs p hp1
        · rcases List.mem_singleton.mp hp1 with rfl
          rfl
      rw [hreq2, hrefs2]

/-! Bridges between the verifier wrapper and the walk, and a duplicate
counting lemma used by the decoration check. -/

theorem verify_eq_of_steps_ok {c : Chain} {b : List Name}
    (h : verifySteps c.steps [] = .ok b) : verify_chain_arguments c = .ok () := by
  unfold verify_chain_arguments
  rw [h]

theorem verify_eq_of_steps_error {c : Chain} {e : InvalidChainArgsException}
    (h : verifySteps c.steps [] = .error e) : verify_chain_arguments c = .error e := by
  unfold verify_chain_arguments
  rw [h]

theorem steps_ok_of_verify_ok {c : Chain} (h : verify_chain_arguments c = .ok ()) :
    ∃ b, verifySteps c.steps [] = .ok b := by
  unfold verify_chain_arguments at h
  cases h2 : verifySteps c.steps [] with
  | ok b => exact ⟨b, rfl⟩
  | error e => rw [h2] at h; cases h

theorem steps_error_of_verify_error {c : Chain} {e : InvalidChainArgsException}
    (h : verify_chain_arguments c = .error e) : verifySteps c.steps [] = .error e := by
  unfold verify_chain_arguments at h
  cases h2 : verifySteps c.steps [] with
  | ok b => rw [h2] at h; cases h
  | error e2 =>
    rw [h2] at h
    simpa using h

theorem dedup_length_eq_iff (l : List Name) : l.dedup.length = l.length ↔ l.Nodup := by
  constructor
  · intro h
    have hs : l.dedup = l := (List.dedup_sublist l).eq_of_length h
    rw [← hs]
    exact l.nodup_dedup
  · intro h
    rw [List.dedup_eq_self.mpr h]

/-! The claims. -/

/-- C8: chain append is associative: for all chain-like operands a, b, c,
(a | b) | c and a | (b | c) are the same chain, hence produce the same
flattened step sequence in the same left-to-right order and the same
verification outcome. -/
theorem claim8_pipe_assoc (a b c : Chainable) :
    pipe (pipe a b) c = pipe a (pipe b c) ∧
    (pipe (pipe a b) c).toSteps = (pipe a (pipe b c)).toSteps ∧
    verifyChainable (pipe (pipe a b) c) = verifyChainable (pipe a (pipe b c)) := by
  have h : pipe (pipe a b) c = pipe a (pipe b c) := by
    simp [pipe, Chainable.toSteps]
  exact ⟨h, by rw [h], by rw [h]⟩

/-- C6: re-invoking verify on the unmodified chain yields exactly the same
outcome: verification does not modify the chain and carries no memoized
state, so a second run equals the first; in particular, on the chain of
test_detect_missing both runs raise the error naming task2 and x. -/
theorem claim6_verify_idempotent (c : Chain) :
    (verifyRun c).2 = c ∧
    verifyRun ((verifyRun c).2) = verifyRun c ∧
    (verifyRun ⟨[Step.sig ⟨⟨"task1", [], [], []⟩, []⟩,
        Step.sig ⟨⟨"task2", ["x"], [], []⟩, []⟩], none⟩).1 =
      .error ⟨"task2", "x"⟩ ∧
    (verifyRun ((verifyRun ⟨[Step.sig ⟨⟨"task1", [], [], []⟩, []⟩,
        Step.sig ⟨⟨"task2", ["x"], [], []⟩, []⟩], none⟩).2)).1 =
      .error ⟨"task2", "x"⟩ :=
  ⟨rfl, rfl, rfl, rfl⟩

/-- C3: declaring outputs errs with the coding error at decoration time
exactly when the name list is empty, or contains duplicates, or the
output-binder decoration is applied outside/above the task registration;
the error comes from the decoration step itself, independently of any
later call of the task. -/
theorem claim3_decoration_errors (names : List Name) (target : DecTarget) :
    returnsDecorate names target = .error .mk ↔
      (names = [] ∨ ¬ names.Nodup ∨ target = .registeredTask) := by
  unfold returnsDecorate
  by_cases ht : target = DecTarget.registeredTask
  · simp [ht]
  · by_cases he : names.isEmpty
    · have he2 : names = [] := by
        cases names with
        | nil => rfl
        | cons x xs => cases he
      simp [ht, he2]
    · have he2 : names ≠ [] := by
        intro hc
        rw [hc] at he
        exact he rfl
      by_cases hd : names.dedup.length = names.length
      · simp [ht, if_neg (by simpa [List.isEmpty_iff] using he2), hd, he2,
          (dedup_length_eq_iff names).mp hd]
      · simp [ht, if_neg (by simpa [List.isEmpty_iff] using he2), hd, he2]
        intro hc
        exact hd ((dedup_length_eq_iff names).mpr hc)

/-- C7: an Injected Seed has no required inputs of its own: its step check
never fails, and it contributes all of its supplied names to the
available-outputs pool; composing a seed that supplies every required name
of a task ahead of that task, with no explicit binding, verifies
successfully. -/
theorem claim7_inject_seed (i : InjectArgs) (rest : List Step) (avail : List Name)
    (tc : TaskContract) (lbl : Option String) :
    stepCheck avail (Step.seed i) = none ∧
    verifySteps (Step.seed i :: rest) avail =
      verifySteps rest (avail ++ i.seed_kwargs.map Prod.fst) ∧
    ((∀ r ∈ tc.required_inputs, r ∈ i.seed_kwargs.map Prod.fst) →
      verify_chain_arguments ⟨[Step.seed i, Step.sig ⟨tc, []⟩], lbl⟩ = .ok ()) := by
  refine ⟨rfl, rfl, ?_⟩
  intro hreq
  have hchk : checkRequired ([] ++ i.seed_kwargs.map Prod.fst) [] tc.required_inputs = none := by
    rw [checkRequired_eq_none_iff]
    intro r hr
    unfold requiredSatisfied
    rw [show lookupKw [] r = none from rfl]
    simp only [Bool.false_or, contains_iff_mem]
    exact List.mem_append.mpr (Or.inr (hreq r hr))
  have hsteps : verifySteps [Step.seed i, Step.sig ⟨tc, []⟩] [] =
      .ok (stepContrib ([] ++ i.seed_kwargs.map Prod.fst) (Step.sig ⟨tc, []⟩)) := by
    rw [verifySteps]
    rw [show stepCheck [] (Step.seed i) = none from rfl]
    rw [show stepContrib [] (Step.seed i) = [] ++ i.seed_kwargs.map Prod.fst from rfl]
    rw [verifySteps, stepCheck, hchk]
    rw [show checkRefs ([] ++ i.seed_kwargs.map Prod.fst) (⟨tc, []⟩ : Signature).bound_kwargs = none from rfl]
    rfl
  exact verify_eq_of_steps_ok hsteps

/-- The C7 theorem applied to the seed and task of test_inject_necessary. -/
theorem claim7_inject_seed_witness :
    (∀ r ∈ (⟨"injected_task2", ["needed"], [], []⟩ : TaskContract).required_inputs,
      r ∈ ((⟨[("needed", "thing")]⟩ : InjectArgs).seed_kwargs.map Prod.fst)) ∧
    verify_chain_arguments ⟨[Step.seed ⟨[("needed", "thing")]⟩,
      Step.sig ⟨⟨"injected_task2", ["needed"], [], []⟩, []⟩], none⟩ = .ok () :=
  ⟨by decide,
   (claim7_inject_seed ⟨[("needed", "thing")]⟩ [] []
     ⟨"injected_task2", ["needed"], [], []⟩ none).2.2 (by decide)⟩

/-- C2 counterexample: the mapping produced by the output binder does not
have exactly the declared names as keys — the caller's original kwargs are
merged in (chain_tests.py, test_returns_and_bind expects the input
the_goods among the keys); and a non-sequence scalar return with two
declared names raises even though it is neither None nor a sequence of
wrong length. -/
theorem claim2_cex :
    (returnsCall ["the_task_name", "stuff"] [("the_goods", PyVal.pstr "the_goods")]
        (PyVal.ptuple [PyVal.pstr "nm", PyVal.pstr "g"])).map (List.map Prod.fst) =
      .ok ["the_task_name", "stuff", "the_goods"] ∧
    "the_goods" ∉ (["the_task_name", "stuff"] : List Name) ∧
    returnsCall ["a", "b"] [] (PyVal.pnat 5) = .error .mk :=
  ⟨rfl, by decide, rfl⟩

/-- C2 (amended): with k at least 2 declared names the call raises exactly
when the raw return value is not a sequence of length k (None, a
non-sequence value, or a sequence of different length); a sequence of
length k produces the mapping binding the declared names in order, merged
with the caller's original kwargs, so the keys are the declared names
followed by the kwarg keys; with exactly one declared name any value
whatsoever is accepted and bound as-is to it, merged with the kwargs. -/
theorem claim2_returns (names : List Name) (kwargs : List (Name × PyVal)) (result : PyVal) :
    (2 ≤ names.length →
      ((returnsCall names kwargs result = .error .mk) ↔
        ¬ ∃ vs, result = PyVal.ptuple vs ∧ vs.length = names.length) ∧
      (∀ vs, result = PyVal.ptuple vs → vs.length = names.length →
        returnsCall names kwargs result = .ok (names.zip vs ++ kwargs) ∧
        (names.zip vs ++ kwargs).map Prod.fst = names ++ kwargs.map Prod.fst)) ∧
    (∀ nm, names = [nm] → returnsCall names kwargs result = .ok ((nm, result) :: kwargs)) := by
  rcases names with _ | ⟨n1, rest1⟩
  · refine ⟨fun hlen => absurd hlen (by simp), fun nm h => by cases h⟩
  · rcases rest1 with _ | ⟨n2, rest2⟩
    · refine ⟨fun hlen => absurd hlen (by simp), fun nm h => ?_⟩
      cases h
      rfl
    · constructor
      · intro _
        constructor
        · cases result with
          | pnone =>
            constructor
            · rintro _ ⟨vs, hv, _⟩
              cases hv
            · intro _
              rfl
          | pnat n =>
            constructor
            · rintro _ ⟨vs, hv, _⟩
              cases hv
            · intro _
              rfl
          | pstr s =>
            constructor
            · rintro _ ⟨vs, hv, _⟩
              cases hv
            · intro _
              rfl
          | ptuple vs =>
            by_cases hl : vs.length = (n1 :: n2 :: rest2).length
            · have hok : returnsCall (n1 :: n2 :: rest2) kwargs (PyVal.ptuple vs) =
                  .ok ((n1 :: n2 :: rest2).zip vs ++ kwargs) := by
                simp only [returnsCall]
                rw [if_pos hl]
              rw [hok]
              constructor
              · intro hc
                cases hc
              · intro hc
                exact absurd ⟨vs, rfl, hl⟩ hc
            · have herr : returnsCall (n1 :: n2 :: rest2) kwargs (PyVal.ptuple vs) =
                  .error .mk := by
                simp only [returnsCall]
                rw [if_neg hl]
              rw [herr]
              constructor
              · rintro _ ⟨vs2, hv2, hlen2⟩
                cases hv2
                exact hl hlen2
              · intro _
                rfl
        · intro vs hres hlen2
          subst hres
          constructor
          · simp only [returnsCall]
            rw [if_pos hlen2]
          · rw [List.map_append, List.map_fst_zip]
            omega
      · intro nm h
        simp at h

/-- The C2 theorem applied to test_returning_named_tuples: a single
declared name accepts a tuple return value and binds it as-is. -/
theorem claim2_returns_witness :
    ((["named_t"] : List Name) = ["named_t"]) ∧
    returnsCall ["named_t"] [] (PyVal.ptuple [PyVal.pnat 1, PyVal.pstr "two"]) =
      .ok [("named_t", PyVal.ptuple [PyVal.pnat 1, PyVal.pstr "two"])] :=
  ⟨rfl, (claim2_returns ["named_t"] [] (PyVal.ptuple [PyVal.pnat 1, PyVal.pstr "two"])).2
    "named_t" rfl⟩

/-- C1 counterexample: a chain whose single signature has no required
inputs at all — so every step's required inputs are trivially satisfied —
yet verify raises, because the extra bound kwarg thing is an indirect
reference to the unavailable name stuff (chain_tests.py, test_indirect,
the assertRaises on task1_no_return bound with an indirect thing). -/
theorem claim1_cex :
    allRequiredOk [Step.sig ⟨⟨"task1_no_return", [], [], []⟩,
      [("thing", BoundValue.ref "stuff")]⟩] [] = true ∧
    verify_chain_arguments ⟨[Step.sig ⟨⟨"task1_no_return", [], [], []⟩,
      [("thing", BoundValue.ref "stuff")]⟩], none⟩ =
      .error ⟨"task1_no_return", "thing"⟩ :=
  ⟨rfl, rfl⟩

/-- C1 (amended): for every chain whose signatures have distinct kwargs
keys, verify succeeds exactly when no reachable step is offending, where a
step offends when it has a required input that is neither literally bound,
nor bound as an indirect reference to an available name, nor itself
available — optional inputs are never consulted — or when any of its bound
kwargs is an indirect reference to an unavailable name; on failure the
error names the task of the first offending step (every step before it,
walked with its accumulated pool, is offence-free) and one of its
offending inputs; verification does not modify the chain. -/
theorem claim1_first_offender (c : Chain) (hwf : ChainWF c) :
    (verify_chain_arguments c = .ok () ↔
      ∀ pre st post a, c.steps = pre ++ st :: post → verifySteps pre [] = .ok a →
        ¬ StepOffends a st) ∧
    (∀ e, verify_chain_arguments c = .error e →
      ∃ pre s post a, c.steps = pre ++ Step.sig s :: post ∧
        verifySteps pre [] = .ok a ∧
        e.task = s.task_contract.name ∧
        OffendingInput a s e.input ∧
        ∀ pre2 st2 post2 a2, pre = pre2 ++ st2 :: post2 → verifySteps pre2 [] = .ok a2 →
          ¬ StepOffends a2 st2) ∧
    (verifyRun c).2 = c := by
  refine ⟨⟨?_, ?_⟩, ?_, rfl⟩
  · intro hok pre st post a heq hpre
    rcases steps_ok_of_verify_ok hok with ⟨b, hb⟩
    have hnone := verifySteps_ok_steps hb pre st post a heq hpre
    have hwfst : StepWF st :=
      hwf st (by rw [heq]; exact List.mem_append_right _ (List.mem_cons_self _ _))
    exact (stepCheck_eq_none_iff hwfst a).mp hnone
  · intro hall
    cases h : verifySteps c.steps [] with
    | ok b => exact verify_eq_of_steps_ok h
    | error e =>
      exfalso
      rcases verifySteps_error_decomp h with ⟨pre, st, post, a, heq, hpre, hstep⟩
      have hwfst : StepWF st :=
        hwf st (by rw [heq]; exact List.mem_append_right _ (List.mem_cons_self _ _))
      rcases stepCheck_eq_some_offends hwfst hstep with ⟨s, rfl, _, hoff⟩
      exact hall pre _ post a heq hpre ⟨e.input, hoff⟩
  · intro e he
    have h := steps_error_of_verify_error he
    rcases verifySteps_error_decomp h with ⟨pre, st, post, a, heq, hpre, hstep⟩
    have hwfst : StepWF st :=
      hwf st (by rw [heq]; exact List.mem_append_right _ (List.mem_cons_self _ _))
    rcases stepCheck_eq_some_offends hwfst hstep with ⟨s, rfl, hname, hoff⟩
    refine ⟨pre, s, post, a, heq, hpre, hname, hoff, ?_⟩
    intro pre2 st2 post2 a2 heq2 hpre2
    have hnone := verifySteps_ok_steps hpre pre2 st2 post2 a2 heq2 hpre2
    have hwfst2 : StepWF st2 := by
      apply hwf st2
      rw [heq, heq2]
      exact List.mem_append_left _
        (List.mem_append_right _ (List.mem_cons_self _ _))
    exact (stepCheck_eq_none_iff hwfst2 a2).mp hnone

/-- The C1 theorem applied to the passing chain of test_detect_missing:
the chain is well formed, verify succeeds, and hence no reachable step
offends. -/
theorem claim1_first_offender_witness :
    ChainWF ⟨[Step.sig ⟨⟨"task1", [], [], []⟩, [("stuff", BoundValue.literal "yes")]⟩,
      Step.sig ⟨⟨"task2raise", ["stuff"], [], []⟩, []⟩], none⟩ ∧
    ∀ pre st post a,
      (⟨[Step.sig ⟨⟨"task1", [], [], []⟩, [("stuff", BoundValue.literal "yes")]⟩,
        Step.sig ⟨⟨"task2raise", ["stuff"], [], []⟩, []⟩], none⟩ : Chain).steps =
          pre ++ st :: post →
      verifySteps pre [] = .ok a → ¬ StepOffends a st :=
  ⟨by decide,
   (claim1_first_offender ⟨[Step.sig ⟨⟨"task1", [], [], []⟩,
       [("stuff", BoundValue.literal "yes")]⟩,
     Step.sig ⟨⟨"task2raise", ["stuff"], [], []⟩, []⟩], none⟩ (by decide)).1.mp rfl⟩

/-- C4: with a chain prefix that verifies and accumulates the pool avail,
a kwarg bound to an indirect reference to a name outside the pool (a name
produced only by a later step, or never produced and not seeded) makes
verification of the composed chain fail at that signature, while a kwarg
bound to an indirect reference to a name already in the pool satisfies
that input and passes the reference check. -/
theorem claim4_indirect (pre post : List Step) (s : Signature) (k n : Name)
    (avail : List Name) (lbl : Option String)
    (hpre : verifySteps pre [] = .ok avail) :
    ((k, BoundValue.ref n) ∈ s.bound_kwargs → n ∉ avail →
      ∃ inp, verify_chain_arguments ⟨pre ++ Step.sig s :: post, lbl⟩ =
        .error ⟨s.task_contract.name, inp⟩) ∧
    (lookupKw s.bound_kwargs k = some (BoundValue.ref n) → n ∈ avail →
      requiredSatisfied avail s.bound_kwargs k = true ∧
      refUnresolved avail (k, BoundValue.ref n) = false) := by
  constructor
  · intro hmem hn
    have hstep : ∃ inp, stepCheck avail (Step.sig s) =
        some ⟨s.task_contract.name, inp⟩ := by
      rw [stepCheck]
      cases hreq : checkRequired avail s.bound_kwargs s.task_contract.required_inputs with
      | some r => exact ⟨r, rfl⟩
      | none =>
        rcases checkRefs_isSome_of_mem hmem hn with ⟨k2, hk2⟩
        rw [hk2]
        exact ⟨k2, rfl⟩
    rcases hstep with ⟨inp, hstep⟩
    refine ⟨inp, verify_eq_of_steps_error ?_⟩
    show verifySteps (pre ++ Step.sig s :: post) [] = _
    rw [verifySteps_append_ok hpre, verifySteps, hstep]
  · intro hlook hn
    have hc : avail.contains n = true := (contains_iff_mem avail n).mpr hn
    constructor
    · unfold requiredSatisfied
      rw [hlook]
      show (avail.contains n || avail.contains k) = true
      rw [hc]
      rfl
    · rw [refUnresolved, hc]
      rfl

/-- The C4 theorem applied to the passing indirect binding of
test_chain_assembly_validation: after the beginning step the pool holds
start and final, and binding very_important to an indirect reference to
final is satisfied. -/
theorem claim4_indirect_witness :
    verifySteps [Step.sig ⟨⟨"beginning", ["start"], [], ["final"]⟩,
      [("start", BoundValue.literal "something")]⟩] [] = .ok ["start", "final"] ∧
    lookupKw [("very_important", BoundValue.ref "final")] "very_important" =
      some (BoundValue.ref "final") ∧
    "final" ∈ (["start", "final"] : List Name) ∧
    (requiredSatisfied ["start", "final"]
        [("very_important", BoundValue.ref "final")] "very_important" = true ∧
      refUnresolved ["start", "final"] ("very_important", BoundValue.ref "final") = false) :=
  ⟨rfl, rfl, by decide,
   (claim4_indirect [Step.sig ⟨⟨"beginning", ["start"], [], ["final"]⟩,
       [("start", BoundValue.literal "something")]⟩] []
     ⟨⟨"middle_task", ["very_important"], [], ["mildly_amusing"]⟩,
       [("very_important", BoundValue.ref "final")]⟩
     "very_important" "final" ["start", "final"] none rfl).2 rfl (by decide)⟩

/-- C5 counterexample: a bound kwarg whose key is not among the task
contract's declared inputs is nevertheless inspected when its value is an
indirect reference, and causes verification to fail when the referenced
name is unavailable (chain_tests.py, test_indirect). -/
theorem claim5_cex :
    "bonus" ∉ (⟨"t_extra", [], [], []⟩ : TaskContract).required_inputs ∧
    "bonus" ∉ ((⟨"t_extra", [], [], []⟩ : TaskContract).optional_inputs.map Prod.fst) ∧
    verify_chain_arguments ⟨[Step.sig ⟨⟨"t_extra", [], [], []⟩,
      [("bonus", BoundValue.ref "nowhere")]⟩], none⟩ = .error ⟨"t_extra", "bonus"⟩ :=
  ⟨by decide, by decide, rfl⟩

/-- C5 (amended): extra bound kwargs with literal values are tolerated,
passed through, and never cause verification to fail — appending to any
signature of a passing chain a literal binding whose key is not among the
contract's declared inputs keeps verification passing; only bound values
that are indirect references are inspected. -/
theorem claim5_extra_literal (pre post : List Step) (tc : TaskContract)
    (kw : List (Name × BoundValue)) (k : Name) (v : String) (lbl : Option String)
    (_hreq : k ∉ tc.required_inputs) (_hopt : k ∉ tc.optional_inputs.map Prod.fst)
    (hok : verify_chain_arguments ⟨pre ++ Step.sig ⟨tc, kw⟩ :: post, lbl⟩ = .ok ()) :
    verify_chain_arguments
      ⟨pre ++ Step.sig ⟨tc, kw ++ [(k, BoundValue.literal v)]⟩ :: post, lbl⟩ = .ok () := by
  rcases steps_ok_of_verify_ok hok with ⟨b, hb⟩
  have hb2 : verifySteps (pre ++ Step.sig ⟨tc, kw⟩ :: post) [] = .ok b := hb
  rcases verifySteps_ok_decomp hb2 with ⟨a, hpre, hrest⟩
  have hstep : stepCheck a (Step.sig ⟨tc, kw⟩) = none ∧
      verifySteps post (stepContrib a (Step.sig ⟨tc, kw⟩)) = .ok b := by
    rw [verifySteps] at hrest
    cases hc : stepCheck a (Step.sig ⟨tc, kw⟩) with
    | some e => rw [hc] at hrest; cases hrest
    | none => rw [hc] at hrest; exact ⟨rfl, hrest⟩
  have hstep2 := stepCheck_extend_literal k v hstep.1
  have hcontrib : stepContrib a (Step.sig ⟨tc, kw⟩) ⊆
      stepContrib a (Step.sig ⟨tc, kw ++ [(k, BoundValue.literal v)]⟩) := by
    intro x hx
    rw [stepContrib] at hx ⊢
    rw [sigLiteralKeys_append]
    simp only [List.mem_append] at hx ⊢
    tauto
  rcases verifySteps_ok_mono hstep.2 hcontrib with ⟨b2, hpost2, _⟩
  have hsteps : verifySteps
      (pre ++ Step.sig ⟨tc, kw ++ [(k, BoundValue.literal v)]⟩ :: post) [] = .ok b2 := by
    rw [verifySteps_append_ok hpre, verifySteps, hstep2]
    exact hpost2
  exact verify_eq_of_steps_ok hsteps

/-- The C5 theorem applied to the scenario of test_inject_irrelevant: a
task with no inputs passes, and adding the irrelevant literal binding
random keeps it passing. -/
theorem claim5_extra_literal_witness :
    "random" ∉ (⟨"injected_task1", [], [], []⟩ : TaskContract).required_inputs ∧
    "random" ∉ ((⟨"injected_task1", [], [], []⟩ : TaskContract).optional_inputs.map Prod.fst) ∧
    verify_chain_arguments ⟨[Step.sig ⟨⟨"injected_task1", [], [], []⟩, []⟩], none⟩ = .ok () ∧
    verify_chain_arguments ⟨[Step.sig ⟨⟨"injected_task1", [], [], []⟩,
      [("random", BoundValue.literal "thing")]⟩], none⟩ = .ok () :=
  ⟨by decide, by decide, rfl,
   claim5_extra_literal [] [] ⟨"injected_task1", [], [], []⟩ [] "random" "thing" none
     (by decide) (by decide) rfl⟩

/-! Helper lemmas for the retry collaborators. -/

theorem handleBrokerRun_succ (attempts : Nat → CallResult) (tmo : Option Nat)
    (d fuel now i : Nat) :
    handleBrokerRun attempts tmo d (fuel + 1) now i =
      match attempts i with
      | .ok v => some (.ret v)
      | .exn en =>
        if en ≠ "TimeoutError" then some (.raised en)
        else
          match tmo with
          | none => handleBrokerRun attempts none d fuel (now + d) (i + 1)
          | some tt =>
            if now < tt then handleBrokerRun attempts (some tt) d fuel (now + d) (i + 1)
            else some (.raised "TimeoutError") := rfl

theorem handleBrokerRun_bounded (attempts : Nat → CallResult) (tt d : Nat) :
    ∀ fuel now i, tt ≤ now + fuel * d →
      (handleBrokerRun attempts (some tt) d (fuel + 1) now i).isSome = true := by
  intro fuel
  induction fuel with
  | zero =>
    intro now i h
    have hle : ¬ now < tt := by
      simp only [Nat.zero_mul, Nat.add_zero] at h
      omega
    cases hai : attempts i with
    | ok v => rw [handleBrokerRun_succ, hai]; rfl
    | exn en =>
      by_cases hen : en = "TimeoutError"
      · subst hen
        rw [handleBrokerRun_succ, hai]
        simp [hle]
      · rw [handleBrokerRun_succ, hai]
        simp [hen]
  | succ fuel ih =>
    intro now i h
    cases hai : attempts i with
    | ok v => rw [handleBrokerRun_succ, hai]; rfl
    | exn en =>
      by_cases hen : en = "TimeoutError"
      · subst hen
        rw [handleBrokerRun_succ, hai]
        by_cases hlt : now < tt
        · have hrec := ih (now + d) (i + 1) (by
            have hexp : (fuel + 1) * d = fuel * d + d := Nat.succ_mul _ _
            omega)
          simp [hlt, hrec]
        · simp [hlt]
      · rw [handleBrokerRun_succ, hai]
        simp [hen]

theorem handleBrokerRun_skip_timeouts (attempts : Nat → CallResult) (d : Nat) (v : PyVal) :
    ∀ k i now, (∀ m, m < k → attempts (i + m) = .exn "TimeoutError") →
      attempts (i + k) = .ok v →
      handleBrokerRun attempts none d (k + 1) now i = some (.ret v) := by
  intro k
  induction k with
  | zero =>
    intro i now _ hok
    have hai : attempts i = .ok v := by simpa using hok
    rw [handleBrokerRun_succ, hai]
  | succ k ih =>
    intro i now hto hok
    have h0 : attempts i = .exn "TimeoutError" := by
      have := hto 0 (by omega)
      simpa using this
    have hrec : handleBrokerRun attempts none d (k + 1) (now + d) (i + 1) =
        some (.ret v) := by
      apply ih (i + 1) (now + d)
      · intro m hm
        have := hto (m + 1) (by omega)
        rw [show i + 1 + m = i + (m + 1) from by omega]
        exact this
      · rw [show i + 1 + k = i + (k + 1) from by omega]
        exact hok
    rw [handleBrokerRun_succ, h0]
    simp [hrec]

theorem inspectLoop_congr (ia ia2 : Nat → InspectResult) (r : Bool) (tt : Nat) :
    ∀ n now i, tt - now = n → (∀ j, j ≤ i + n → ia j = ia2 j) →
      inspectLoop ia r tt now i = inspectLoop ia2 r tt now i := by
  intro n
  induction n with
  | zero =>
    intro now i hn hagree
    have hnl : ¬ now < tt := by omega
    unfold inspectLoop
    rw [dif_neg hnl, dif_neg hnl, hagree i (by omega)]
  | succ n ih =>
    intro now i hn hagree
    by_cases hlt : now < tt
    · unfold inspectLoop
      rw [dif_pos hlt, dif_pos hlt, ← hagree i (by omega)]
      cases hai : ia i with
      | ok v =>
        cases v with
        | pnone =>
          simp only [hai]
          cases r with
          | false => rfl
          | true =>
            simp only [if_true]
            exact ih (now + 1) (i + 1) (by omega) (fun j hj => hagree j (by omega))
        | pnat n2 => simp only [hai]
        | pstr s => simp only [hai]
        | ptuple vs => simp only [hai]
      | exn en =>
        simp only [hai]
        exact ih (now + 1) (i + 1) (by omega) (fun j hj => hagree j (by omega))
    · unfold inspectLoop
      rw [dif_neg hlt, dif_neg hlt, hagree i (by omega)]

/-- C9 counterexample: handle_broker_timeout accepts the falsy timeout
(None is the Python default; 0 is also accepted), and under it a callee
that keeps raising TimeoutError is retried forever: no amount of fuel
makes the loop stop, so the invocation is not bounded by any timeout. -/
theorem claim9_cex :
    ¬ BrokerTerminates (fun _ => CallResult.exn "TimeoutError") 0 1 := by
  rintro ⟨fuel, t0, h⟩
  have hrun : ∀ f now i,
      handleBrokerRun (fun _ => CallResult.exn "TimeoutError") none 1 f now i = none := by
    intro f
    induction f with
    | zero => intro now i; rfl
    | succ f ih =>
      intro now i
      rw [handleBrokerRun_succ]
      simp [ih]
  rw [handle_broker_timeout, if_pos rfl, hrun] at h
  cases h

/-- C9 (amended): both retry collaborators are bounded once a truthy
timeout is configured: with a nonzero timeout and positive retry delay,
handle_broker_timeout produces an outcome within timeout plus one
iterations for every sequence of callee outcomes, and inspect_with_retry
consults at most the first timeout plus one callee attempts for every
timeout value; with a falsy timeout the broker wrapper retries without
bound (see the counterexample). -/
theorem claim9_bounded (attempts : Nat → CallResult) (T d t0 : Nat)
    (ia ia2 : Nat → InspectResult) (T2 : Nat) (r : Bool) (t02 : Nat)
    (hT : T ≠ 0) (hd : 1 ≤ d)
    (hagree : ∀ j, j ≤ T2 → ia j = ia2 j) :
    (handle_broker_timeout attempts T d (T + 1) t0).isSome = true ∧
    inspect_with_retry ia T2 r t02 = inspect_with_retry ia2 T2 r t02 := by
  constructor
  · rw [handle_broker_timeout, if_neg hT]
    apply handleBrokerRun_bounded
    have hmul : T * 1 ≤ T * d := Nat.mul_le_mul_left T hd
    omega
  · unfold inspect_with_retry
    by_cases hT2 : T2 = 0
    · rw [if_pos hT2, if_pos hT2, hagree 0 (by omega)]
    · rw [if_neg hT2, if_neg hT2]
      exact inspectLoop_congr ia ia2 r (t02 + T2) T2 t02 0 (by omega)
        (fun j hj => hagree j (by omega))

/-- The C9 theorem applied to a persistently timing-out broker callee with
timeout 3 and delay 1, and to a constant inspection callee with timeout 2. -/
theorem claim9_bounded_witness :
    (3 : Nat) ≠ 0 ∧ (1 : Nat) ≤ 1 ∧
    (∀ j, j ≤ 2 → ((fun _ => InspectResult.ok PyVal.pnone) : Nat → InspectResult) j =
      ((fun _ => InspectResult.ok PyVal.pnone) : Nat → InspectResult) j) ∧
    ((handle_broker_timeout (fun _ => CallResult.exn "TimeoutError") 3 1 4 0).isSome = true ∧
      inspect_with_retry (fun _ => InspectResult.ok PyVal.pnone) 2 true 0 =
        inspect_with_retry (fun _ => InspectResult.ok PyVal.pnone) 2 true 0) :=
  ⟨by decide, by decide, fun j hj => rfl,
   claim9_bounded (fun _ => CallResult.exn "TimeoutError") 3 1 0
     (fun _ => InspectResult.ok PyVal.pnone) (fun _ => InspectResult.ok PyVal.pnone) 2 true 0
     (by decide) (by decide) (fun j hj => rfl)⟩

/-- C10: handle_broker_timeout re-raises immediately — with no retry,
no sleep and the exception name unaltered — any exception whose type name
is not exactly TimeoutError, at whatever attempt it occurs, regardless of
remaining fuel, clock or timeout configuration; a value returned by the
callable at the current attempt is returned to the caller as-is; and under
the no-timeout configuration, after any number of leading TimeoutError
failures, the first value the callable returns is passed through exactly. -/
theorem claim10_passthrough (attempts : Nat → CallResult) (tmo : Option Nat)
    (d now i j t0 : Nat) (en : String) (v : PyVal) :
    (attempts i = .exn en → en ≠ "TimeoutError" →
      ∀ fuel, handleBrokerRun attempts tmo d (fuel + 1) now i = some (.raised en)) ∧
    (attempts i = .ok v →
      ∀ fuel, handleBrokerRun attempts tmo d (fuel + 1) now i = some (.ret v)) ∧
    ((∀ m, m < j → attempts m = .exn "TimeoutError") → attempts j = .ok v →
      handle_broker_timeout attempts 0 d (j + 1) t0 = some (.ret v)) := by
  refine ⟨?_, ?_, ?_⟩
  · intro hai hen fuel
    rw [handleBrokerRun_succ, hai]
    simp [hen]
  · intro hai fuel
    rw [handleBrokerRun_succ, hai]
  · intro hto hok
    rw [handle_broker_timeout, if_pos rfl]
    apply handleBrokerRun_skip_timeouts
    · intro m hm
      have := hto m hm
      simpa using this
    · simpa using hok

/-- The C10 theorem applied under the no-timeout configuration to a callee
that raises TimeoutError twice and then returns 7: the value is passed
through exactly. -/
theorem claim10_passthrough_witness :
    ((fun idx => if idx < 2 then CallResult.exn "TimeoutError"
        else CallResult.ok (PyVal.pnat 7)) : Nat → CallResult) 2 =
      CallResult.ok (PyVal.pnat 7) ∧
    (∀ m, m < 2 → ((fun idx => if idx < 2 then CallResult.exn "TimeoutError"
        else CallResult.ok (PyVal.pnat 7)) : Nat → CallResult) m =
      CallResult.exn "TimeoutError") ∧
    handle_broker_timeout (fun idx => if idx < 2 then CallResult.exn "TimeoutError"
        else CallResult.ok (PyVal.pnat 7)) 0 1 3 0 =
      some (BrokerOutcome.ret (PyVal.pnat 7)) := by
  refine ⟨rfl, ?_, ?_⟩
  · intro m hm
    interval_cases m <;> rfl
  · exact (claim10_passthrough (fun idx => if idx < 2 then CallResult.exn "TimeoutError"
        else CallResult.ok (PyVal.pnat 7)) none 1 0 0 2 0 "ValueError" (PyVal.pnat 7)).2.2
      (fun m hm => by interval_cases m <;> rfl) rfl

end Firexkit
